import Mathlib

/-!
Verification development for the block-to-page conversion engine
(logseq-plugin-block-to-page).  The definitions below are a shallow
embedding of the TypeScript source: JavaScript values are modelled by
the inductive type `Val` (with an explicit `undef` constructor, since
reading an absent object key yields `undefined`), JavaScript objects by
ordered association lists (insertion order, unique keys maintained by
`setKey`, as JS object assignment does), and the regular expression
matching in the property line scanner by an explicit character-level
parse.
-/

/-- Model of a JavaScript value as it occurs in this plugin: property
values, merge inputs and outputs. -/
inductive Val where
  | undef : Val
  | null : Val
  | bool : Bool → Val
  | num : Int → Val
  | str : String → Val
  | arr : List Val → Val
  | obj : List (String × Val) → Val
deriving Repr

/-- Ordered-object lookup: the value of key `k`, or `none` when the key
is absent (JS distinguishes own-key presence from the `undefined`
value for `Object.keys`, so presence is tracked separately from
`Val.undef`). -/
def lookupKey : List (String × Val) → String → Option Val
  | [], _ => none
  | p :: rest, k => if p.1 = k then some p.2 else lookupKey rest k

/-- Reading `target[key]` in JS: an absent key reads as `undefined`. -/
def lookupD (t : List (String × Val)) (k : String) : Val :=
  (lookupKey t k).getD Val.undef

/-- Whether the object has key `k` as an own key. -/
def hasKey : List (String × Val) → String → Bool
  | [], _ => false
  | p :: rest, k => if p.1 = k then true else hasKey rest k

/-- JS object assignment `target[key] = v`: an existing key keeps its
position and gets the new value, a new key is appended at the end. -/
def setKey (t : List (String × Val)) (k : String) (v : Val) : List (String × Val) :=
  if hasKey t k then t.map (fun p => if p.1 = k then (k, v) else p)
  else t ++ [(k, v)]

/-- JS `Object.fromEntries`: later entries for the same key overwrite
the value, the key keeps the position of its first occurrence. -/
def fromEntries (l : List (String × Val)) : List (String × Val) :=
  l.foldl (fun acc p => setKey acc p.1 p.2) []

mutual
/-- The per-key combination step and the key loop of `mergeObjects`
(util.ts, lines 33-51).  `mergeVal existing incoming` follows the
branch structure of the loop body: an incoming array is concatenated
onto an existing array and otherwise replaces; an incoming non-null
object is merged recursively into an existing object (for an existing
`null`, the spread `\x7b...null\x7d` yields the empty object, hence the merge
into `[]`), and otherwise replaces; every other incoming value
(scalars, `null`, `undefined`) replaces the existing value. -/
def mergeVal (existing incoming : Val) : Val :=
  match incoming with
  | .arr xs =>
    match existing with
    | .arr ys => .arr (ys ++ xs)
    | _ => .arr xs
  | .obj fs =>
    match existing with
    | .obj es => .obj (mergeList es fs)
    | .null => .obj (mergeList [] fs)
    | _ => .obj fs
  | v => v
termination_by sizeOf incoming

/-- The `for (const key of Object.keys(source))` loop of
`mergeObjects`: fold the source entries left to right into the
target. -/
def mergeList : List (String × Val) → List (String × Val) → List (String × Val)
  | t, [] => t
  | t, (k, v) :: rest => mergeList (setKey t k (mergeVal (lookupD t k) v)) rest
termination_by _ s => sizeOf s
end

/-- `mergeObjects(target, source?, ...args)` (util.ts, lines 33-51):
with no source left it returns the target unchanged, otherwise it
merges the first source into the target and recurses on the remaining
sources. -/
def mergeObjects (target : List (String × Val)) : List (List (String × Val)) → List (String × Val)
  | [] => target
  | s :: rest => mergeObjects (mergeList target s) rest

mutual
/-- JS string conversion of a value, as performed by the template
literal in `formatPropertiesString`. -/
def displayVal : Val → String
  | .undef => "undefined"
  | .null => "null"
  | .bool true => "true"
  | .bool false => "false"
  | .num n => toString n
  | .str s => s
  | .arr xs => joinCommaDisplay xs
  | .obj _ => "[object Object]"

/-- JS array stringification: elements joined by commas. -/
def joinCommaDisplay : List Val → String
  | [] => ""
  | [v] => displayElem v
  | v :: rest => displayElem v ++ "," ++ joinCommaDisplay rest
termination_by xs => sizeOf xs

/-- JS array element stringification: `null` and `undefined` become the
empty string inside an array. -/
def displayElem : Val → String
  | .undef => ""
  | .null => ""
  | .bool true => "true"
  | .bool false => "false"
  | .num n => toString n
  | .str s => s
  | .arr xs => joinCommaDisplay xs
  | .obj _ => "[object Object]"
termination_by v => sizeOf v
end

/-- `formatPropertiesString` (util.ts, lines 53-55): one line per
entry, `key:: value`, joined by newline, in object iteration order. -/
def joinLines : List String → String
  | [] => ""
  | [l] => l
  | l :: rest => l ++ "\n" ++ joinLines rest

def formatPropertiesString (props : List (String × Val)) : String :=
  joinLines (props.map (fun p => p.1 ++ ":: " ++ displayVal p.2))

/-- JS `\w` (ASCII word character), as used by `propertyLineRegex`. -/
def isWordChar (c : Char) : Bool := c.isAlpha || c.isDigit || c = '_'

/-- The ECMAScript `\s` character set: the WhiteSpace production
(tab, vertical tab, form feed, space, no-break space, zero-width
no-break space and the Unicode space separators) together with the
LineTerminator production (line feed, carriage return, line separator,
paragraph separator). -/
def spaceChars : List Char :=
  [' ', '\t', '\n', '\x0b', '\x0c', '\r',
   '\u00A0', '\u1680',
   '\u2000', '\u2001', '\u2002', '\u2003', '\u2004', '\u2005', '\u2006',
   '\u2007', '\u2008', '\u2009', '\u200A',
   '\u2028', '\u2029', '\u202F', '\u205F', '\u3000', '\uFEFF']

/-- JS `\s`. -/
def isSpaceChar (c : Char) : Bool := decide (c ∈ spaceChars)

/-- The ECMAScript LineTerminator set: the characters `.` does not
match (without the dot-all flag) and around which `$` does not match
mid-input (without the multiline flag). -/
def lineTerminators : List Char := ['\n', '\r', '\u2028', '\u2029']

def isLineTerminator (c : Char) : Bool := decide (c ∈ lineTerminators)

/-- Remove the trailing whitespace run, as the lazy tail
`(.*?)\s*?$` of `propertyLineRegex` does around the value capture. -/
def trimTrailingSpace (cs : List Char) : List Char :=
  (cs.reverse.dropWhile isSpaceChar).reverse

/-- Character-level reading of
`propertyLineRegex = /^\s*([\w]+)::\s+(.*?)\s*?$/` (util.ts, line 58):
optional leading whitespace, a maximal nonempty run of word characters
(maximal munch is exact here because a colon is not a word character),
the literal `::`, then a maximal nonempty whitespace run (greedy
`\s+`; shortening it cannot rescue a failed match because it only
prepends whitespace to the value region).  On the remaining value
region `S` the lazy tail `(.*?)\s*?$` succeeds for the shortest prefix
`P` of `S` whose remainder is all whitespace, so the capture is `S`
with its maximal trailing whitespace run removed; since `.` matches no
line terminator and `$` (no multiline flag) only matches at the end of
the input, the match fails when that capture still contains a line
terminator.  Returns the two captures. -/
def parsePropertyLineChars (cs : List Char) : Option (List Char × List Char) :=
  let afterIndent := cs.dropWhile isSpaceChar
  let key := afterIndent.takeWhile isWordChar
  let rest := afterIndent.dropWhile isWordChar
  if key.isEmpty then none
  else
    match rest with
    | ':' :: ':' :: rest2 =>
      let ws := rest2.takeWhile isSpaceChar
      let value := rest2.dropWhile isSpaceChar
      if ws.isEmpty then none
      else
        let captured := trimTrailingSpace value
        if captured.any isLineTerminator then none
        else some (key, captured)
    | _ => none

/-- `line.match(propertyLineRegex)` reduced to its two capture
groups. -/
def parsePropertyLine (l : String) : Option (String × String) :=
  (parsePropertyLineChars l.data).map (fun p => (⟨p.1⟩, ⟨p.2⟩))

/-- `propertyLineRegex.test(line)`. -/
def isPropertyLine (l : String) : Bool := (parsePropertyLine l).isSome

/-- JS `content.split("\n")`: split at every newline, keeping empty
pieces; the empty string splits to one empty piece. -/
def splitLinesAux (acc : List Char) : List Char → List String
  | [] => [⟨acc⟩]
  | c :: rest =>
    if c = '\n' then (⟨acc⟩ : String) :: splitLinesAux [] rest
    else splitLinesAux (acc ++ [c]) rest

def splitLines (s : String) : List String := splitLinesAux [] s.data

/-- `getFirstPropertyLine` (util.ts, lines 79-82): index of the first
line matching the property pattern, or the number of lines when none
matches (`findIndex` returning -1 is mapped to `lines.length`). -/
def getFirstPropertyLine (lines : List String) : Nat :=
  match lines.findIdx? (fun line => isPropertyLine line) with
  | some i => i
  | none => lines.length

/-- `getLastPropertyLine` (util.ts, lines 88-92): `findIndex` of the
first non-matching line in `lines.slice(firstPropLine)`; when that is
-1 the code uses `lines.length` instead, and one is subtracted from
the result.  Note the found index is relative to the sliced list but
is returned without adding `firstPropLine` back. -/
def getLastPropertyLine (lines : List String) (firstPropLine : Nat) : Int :=
  match (lines.drop firstPropLine).findIdx? (fun line => !(isPropertyLine line)) with
  | some k => (k : Int) - 1
  | none => (lines.length : Int) - 1

/-- JS `Array.prototype.slice(start, end)` for the nonnegative
arguments that occur in this plugin. -/
def sliceJS (l : List α) (s e : Int) : List α := (l.take e.toNat).drop s.toNat

/-- Lowercasing, as `key.toLowerCase()` does on the ASCII keys matched
by `[\w]+`. -/
def toLowerStr (s : String) : String := ⟨s.data.map Char.toLower⟩

/-- `.replace(/[^a-z]/, "")`: the regex has no global flag, so only the
first character outside `a`-`z` is removed. -/
def removeFirstNonLower : List Char → List Char
  | [] => []
  | c :: rest => if c.isLower then c :: removeFirstNonLower rest else rest

/-- The key normalization of the Extractor (util.ts, line 70):
`key.toLowerCase().replace(/[^a-z]/, "")`. -/
def normalizeKey (k : String) : String := ⟨removeFirstNonLower (toLowerStr k).data⟩

/-- A block as the Extractor sees it: its raw text and its resolved
property map (normalized keys to canonical values). -/
structure Block where
  content : String
  properties : List (String × Val)

/-- The scanned raw key/value pairs of a block
(the `lines.slice(first, last + 1).map(match).filter(...)` chain in
`getPropertiesFromBlockContent`, util.ts, lines 60-68). -/
def scannedPairs (b : Block) : List (String × String) :=
  let lines := splitLines b.content
  let first := getFirstPropertyLine lines
  let last := getLastPropertyLine lines first
  (sliceJS lines (first : Int) (last + 1)).filterMap parsePropertyLine

/-- `getPropertiesFromBlockContent` (util.ts, lines 60-74): each
scanned raw key is kept as written, its value is the lookup of the
normalized key in the resolved properties of the block, and the pairs
are assembled with `Object.fromEntries`. -/
def getPropertiesFromBlockContent (b : Block) : List (String × Val) :=
  fromEntries ((scannedPairs b).map (fun kv => (kv.1, lookupD b.properties (normalizeKey kv.1))))

/-- `removeProperties` (util.ts, lines 94-98):
`allLines.slice(0, getFirstPropertyLine(allLines))`. -/
def removeProperties (allLines : List String) : List String :=
  let firstPropertyLine := getFirstPropertyLine allLines
  sliceJS allLines 0 (firstPropertyLine : Int)

/-- Insert `c` immediately after the first occurrence of `t`; if `t`
does not occur, the list is unchanged.  Models
`moveBlock(c, t, \x7b children: false, before: false \x7d)` on the sibling
list of the target page. -/
def insertAfter : List String → String → String → List String
  | [], _, _ => []
  | x :: rest, t, c => if x = t then x :: c :: rest else x :: insertAfter rest t c

/-- Outcome of the relocation loop: the final sibling list of the
target page, the children whose moves were attempted (in order), and
the user-visible error message, if any. -/
structure RelocResult where
  page : List String
  attempted : List String
  errorMsg : Option String
deriving Repr

/-- The child relocation loop of `main` (index.ts, lines 63-80): a
cursor `targetUUID` starts at the anchor block; each child in order is
moved to be the immediate next sibling of the cursor and the cursor
advances to it; the first failing move raises the message
`move block error` and returns at once, leaving every earlier effect
in place. -/
def relocateChildren (moveOk : String → Bool) :
    List String → String → List String → RelocResult
  | page, _, [] => ⟨page, [], none⟩
  | page, cursor, c :: rest =>
    if moveOk c then
      let r := relocateChildren moveOk (insertAfter page cursor c) c rest
      ⟨r.page, c :: r.attempted, r.errorMsg⟩
    else ⟨page, [c], some ("move block error")⟩

/-- The acceptance test of the consistency waiter (index.ts, line 47):
`(updatedSrcBlock?.refs.length ?? 0) <= srcBlock.refs.length - propsCount`,
with JS number subtraction modelled on the integers. -/
def waiterAccept (recordedRefs propsCount observed : Nat) : Bool :=
  (observed : Int) ≤ (recordedRefs : Int) - (propsCount : Int)

/-- The polling loop of the consistency waiter (index.ts, lines
43-54), run over the sequence of snapshots the repeated re-fetch
returns (`none` models a null block, read as reference count 0 by
`?? 0`): the loop stops at the first accepted snapshot and reports its
poll index and the snapshot; between rejected polls it sleeps for a
fixed 50 ms delay, which has no bearing on which snapshot is
accepted. -/
def waitForRefDecrease (recordedRefs propsCount : Nat) : List (Option Nat) → Option (Nat × Option Nat)
  | [] => none
  | s :: rest =>
    if waiterAccept recordedRefs propsCount (s.getD 0) then some (0, s)
    else (waitForRefDecrease recordedRefs propsCount rest).map (fun p => (p.1 + 1, p.2))

/-! ### Basic lemmas about the ordered-object operations -/

def keysOf (l : List (String × Val)) : List String := l.map Prod.fst

theorem hasKey_iff_mem (t : List (String × Val)) (k : String) :
    hasKey t k = true ↔ k ∈ keysOf t := by
  induction t with
  | nil => simp [hasKey, keysOf]
  | cons p rest ih =>
    by_cases hp : p.1 = k
    · simp [hasKey, keysOf, hp]
    · simp only [hasKey, if_neg hp, keysOf, List.map_cons, List.mem_cons]
      simp only [keysOf] at ih
      rw [ih]
      constructor
      · exact fun h => Or.inr h
      · rintro (h | h)
        · exact absurd h.symm hp
        · exact h

theorem hasKey_eq_false_of_not_mem {t : List (String × Val)} {k : String}
    (h : k ∉ keysOf t) : hasKey t k = false := by
  cases hb : hasKey t k with
  | false => rfl
  | true => exact absurd ((hasKey_iff_mem t k).mp hb) h

theorem mem_keysOf_cons {k : String} {p : String × Val} {rest : List (String × Val)} :
    k ∈ keysOf (p :: rest) ↔ k = p.1 ∨ k ∈ keysOf rest := by
  simp [keysOf]

theorem lookupKey_eq_none_of_not_mem {t : List (String × Val)} {k : String}
    (h : k ∉ keysOf t) : lookupKey t k = none := by
  induction t with
  | nil => rfl
  | cons p rest ih =>
    have h1 : ¬(k = p.1) := fun he => h (mem_keysOf_cons.mpr (Or.inl he))
    have h2 : k ∉ keysOf rest := fun hm => h (mem_keysOf_cons.mpr (Or.inr hm))
    simp only [lookupKey, if_neg (fun hp : p.1 = k => h1 hp.symm)]
    exact ih h2

theorem lookupKey_map_setKey (t : List (String × Val)) (k : String) (v : Val)
    (h : hasKey t k = true) :
    lookupKey (t.map (fun p => if p.1 = k then (k, v) else p)) k = some v := by
  induction t with
  | nil => simp [hasKey] at h
  | cons p rest ih =>
    by_cases hp : p.1 = k
    · simp [lookupKey, hp]
    · simp only [hasKey, if_neg hp] at h
      simp only [List.map_cons, if_neg hp, lookupKey]
      exact ih h

theorem lookupKey_append_single (t : List (String × Val)) (k : String) (v : Val)
    (h : hasKey t k = false) : lookupKey (t ++ [(k, v)]) k = some v := by
  induction t with
  | nil => simp [lookupKey]
  | cons p rest ih =>
    by_cases hp : p.1 = k
    · simp [hasKey, hp] at h
    · simp only [hasKey, if_neg hp] at h
      simp only [List.cons_append, lookupKey, if_neg hp]
      exact ih h

theorem lookupKey_setKey_self (t : List (String × Val)) (k : String) (v : Val) :
    lookupKey (setKey t k v) k = some v := by
  unfold setKey
  split
  · rename_i h
    exact lookupKey_map_setKey t k v h
  · rename_i h
    exact lookupKey_append_single t k v (by simpa using h)

theorem lookupKey_map_setKey_ne (t : List (String × Val)) {k k' : String} (v : Val)
    (hne : k' ≠ k) :
    lookupKey (t.map (fun p => if p.1 = k then (k, v) else p)) k' = lookupKey t k' := by
  induction t with
  | nil => rfl
  | cons p rest ih =>
    by_cases hp : p.1 = k
    · have h1 : ¬(k = k') := fun h => hne h.symm
      have h2 : ¬(p.1 = k') := by rw [hp]; exact h1
      simp [lookupKey, hp, h1, h2, ih]
    · simp only [List.map_cons, if_neg hp, lookupKey]
      by_cases hp' : p.1 = k'
      · simp [hp']
      · simp [hp', ih]

theorem lookupKey_append_single_ne (t : List (String × Val)) {k k' : String} (v : Val)
    (hne : k' ≠ k) : lookupKey (t ++ [(k, v)]) k' = lookupKey t k' := by
  induction t with
  | nil => simp only [List.nil_append, lookupKey, if_neg (fun h : k = k' => hne h.symm)]
  | cons p rest ih =>
    simp only [List.cons_append, lookupKey]
    by_cases hp' : p.1 = k'
    · simp [hp']
    · simp [hp', ih]

theorem lookupKey_setKey_ne (t : List (String × Val)) {k k' : String} (v : Val)
    (hne : k' ≠ k) : lookupKey (setKey t k v) k' = lookupKey t k' := by
  unfold setKey
  split
  · exact lookupKey_map_setKey_ne t v hne
  · exact lookupKey_append_single_ne t v hne

theorem keysOf_map_setKey (t : List (String × Val)) (k : String) (v : Val) :
    keysOf (t.map (fun p => if p.1 = k then (k, v) else p)) = keysOf t := by
  induction t with
  | nil => rfl
  | cons p rest ih =>
    by_cases hp : p.1 = k
    · simp [keysOf, hp] at ih ⊢
      exact ih
    · simp [keysOf, hp] at ih ⊢
      exact ih

theorem keysOf_setKey_nodup {t : List (String × Val)} (k : String) (v : Val)
    (h : (keysOf t).Nodup) : (keysOf (setKey t k v)).Nodup := by
  unfold setKey
  split
  · rw [keysOf_map_setKey]
    exact h
  · rename_i hk
    have hmem : k ∉ keysOf t := fun hm => by
      rw [← hasKey_iff_mem] at hm
      exact hk hm
    simp only [keysOf, List.map_append, List.map_cons, List.map_nil]
    refine List.Nodup.append h (List.nodup_singleton k) ?_
    intro x hx hx'
    rw [List.mem_singleton] at hx'
    subst hx'
    exact hmem hx

theorem mem_setKey {q : String × Val} {t : List (String × Val)} {k : String} {v : Val}
    (h : q ∈ setKey t k v) : q ∈ t ∨ q = (k, v) := by
  unfold setKey at h
  split at h
  · obtain ⟨p, hp, hq⟩ := List.mem_map.mp h
    by_cases hpk : p.1 = k
    · rw [if_pos hpk] at hq
      exact Or.inr hq.symm
    · rw [if_neg hpk] at hq
      exact Or.inl (hq ▸ hp)
  · rcases List.mem_append.mp h with h1 | h1
    · exact Or.inl h1
    · rw [List.mem_singleton] at h1
      exact Or.inr h1

theorem setKey_of_fresh {t : List (String × Val)} {k : String} (v : Val)
    (h : hasKey t k = false) : setKey t k v = t ++ [(k, v)] := by
  unfold setKey
  simp [h]

theorem foldl_setKey_nodup (l : List (String × Val)) :
    ∀ acc : List (String × Val), (keysOf acc).Nodup →
      (keysOf (l.foldl (fun acc p => setKey acc p.1 p.2) acc)).Nodup := by
  induction l with
  | nil => intro acc h; simpa using h
  | cons p rest ih =>
    intro acc h
    simp only [List.foldl_cons]
    exact ih _ (keysOf_setKey_nodup p.1 p.2 h)

theorem fromEntries_keys_nodup (l : List (String × Val)) :
    (keysOf (fromEntries l)).Nodup :=
  foldl_setKey_nodup l [] (by simp [keysOf])

theorem foldl_setKey_eq_append (l : List (String × Val)) :
    ∀ acc : List (String × Val), (keysOf acc ++ keysOf l).Nodup →
      l.foldl (fun acc p => setKey acc p.1 p.2) acc = acc ++ l := by
  induction l with
  | nil => intro acc _; simp
  | cons p rest ih =>
    intro acc h
    simp only [keysOf, List.map_cons] at h
    have hmem : p.1 ∉ keysOf acc := by
      intro hA
      rcases List.nodup_append.mp h with ⟨_, _, hdisj⟩
      exact hdisj hA (List.mem_cons_self _ _)
    have hk : hasKey acc p.1 = false := hasKey_eq_false_of_not_mem hmem
    simp only [List.foldl_cons, setKey_of_fresh p.2 hk]
    have heta : acc ++ [(p.1, p.2)] = acc ++ [p] := by simp
    rw [heta, ih (acc ++ [p]) (by simpa [keysOf, List.append_assoc] using h)]
    simp

theorem fromEntries_eq_self {l : List (String × Val)} (h : (keysOf l).Nodup) :
    fromEntries l = l := by
  have := foldl_setKey_eq_append l [] (by simpa [keysOf] using h)
  simpa [fromEntries] using this

theorem foldl_setKey_key_mem (l : List (String × Val)) :
    ∀ (acc : List (String × Val)) (q : String × Val),
      q ∈ l.foldl (fun acc p => setKey acc p.1 p.2) acc → q ∈ acc ∨ q.1 ∈ keysOf l := by
  induction l with
  | nil => intro acc q h; exact Or.inl (by simpa using h)
  | cons p rest ih =>
    intro acc q h
    simp only [List.foldl_cons] at h
    rcases ih _ q h with h1 | h1
    · rcases mem_setKey h1 with h2 | h2
      · exact Or.inl h2
      · refine Or.inr (mem_keysOf_cons.mpr (Or.inl ?_))
        rw [h2]
    · exact Or.inr (mem_keysOf_cons.mpr (Or.inr h1))

theorem fromEntries_key_mem {l : List (String × Val)} {q : String × Val}
    (h : q ∈ fromEntries l) : q.1 ∈ keysOf l := by
  rcases foldl_setKey_key_mem l [] q h with h1 | h1
  · simp at h1
  · exact h1

theorem foldl_setKey_val (f : String → Val) (l : List (String × Val)) :
    ∀ acc : List (String × Val), (∀ p ∈ l, p.2 = f p.1) → (∀ q ∈ acc, q.2 = f q.1) →
      ∀ q ∈ l.foldl (fun acc p => setKey acc p.1 p.2) acc, q.2 = f q.1 := by
  induction l with
  | nil => intro acc _ hacc q hq; exact hacc q (by simpa using hq)
  | cons p rest ih =>
    intro acc hl hacc q hq
    simp only [List.foldl_cons] at hq
    refine ih _ (fun r hr => hl r (List.mem_cons_of_mem _ hr)) ?_ q hq
    intro r hr
    rcases mem_setKey hr with h1 | h1
    · exact hacc r h1
    · rw [h1]
      exact hl p (List.mem_cons_self _ _)

theorem fromEntries_val {l : List (String × Val)} (f : String → Val)
    (hl : ∀ p ∈ l, p.2 = f p.1) : ∀ q ∈ fromEntries l, q.2 = f q.1 :=
  foldl_setKey_val f l [] hl (by simp)

/-! ### The per-key behaviour of the deep merge -/

theorem mergeList_lookup (s : List (String × Val)) :
    ∀ t : List (String × Val), (keysOf s).Nodup → ∀ k : String,
      lookupKey (mergeList t s) k =
        match lookupKey s k with
        | none => lookupKey t k
        | some v => some (mergeVal (lookupD t k) v) := by
  induction s with
  | nil => intro t _ k; simp [mergeList, lookupKey]
  | cons p rest ih =>
    intro t hnodup k
    obtain ⟨k0, v0⟩ := p
    have hnodup' : (keysOf rest).Nodup := by
      simpa [keysOf] using hnodup.of_cons
    have hk0 : k0 ∉ keysOf rest := by
      have := hnodup
      simp only [keysOf, List.map_cons, List.nodup_cons] at this
      simpa [keysOf] using this.1
    simp only [mergeList]
    rw [ih _ hnodup' k]
    by_cases hk : k = k0
    · subst hk
      rw [lookupKey_eq_none_of_not_mem hk0]
      simp [lookupKey_setKey_self, lookupKey]
    · have h1 : ∀ w, lookupKey (setKey t k0 w) k = lookupKey t k :=
        fun w => lookupKey_setKey_ne t w hk
      have hne0 : ¬(k0 = k) := fun he => hk he.symm
      simp only [lookupKey, if_neg hne0]
      cases hrest : lookupKey rest k with
      | none => simp [h1]
      | some v => simp [lookupD, h1]

/-- C3: for every accumulator and source object, `mergeObjects`
combines each source key into the accumulator per-key: an incoming
value combines with the existing value through `mergeVal` (array
concatenation onto an existing array, recursive merge of an object
into an existing object, replacement otherwise), keys only in the
accumulator keep their values (the `none` branch), and keys only in
the source are added with the incoming value (`mergeVal` of an absent
existing value is the incoming value).  The three concrete examples of
the claim are included. -/
theorem mergeObjects_per_key_spec :
    (∀ t s : List (String × Val), (keysOf s).Nodup → ∀ k : String,
      lookupKey (mergeObjects t [s]) k =
        match lookupKey s k with
        | none => lookupKey t k
        | some v => some (mergeVal (lookupD t k) v)) ∧
    (∀ v : Val, mergeVal Val.undef v = v) ∧
    mergeObjects [("a", Val.arr [Val.num 1])] [[("a", Val.arr [Val.num 2])]] =
      [("a", Val.arr [Val.num 1, Val.num 2])] ∧
    mergeObjects [("a", Val.obj [("x", Val.num 1)])] [[("a", Val.obj [("y", Val.num 2)])]] =
      [("a", Val.obj [("x", Val.num 1), ("y", Val.num 2)])] ∧
    mergeObjects [("a", Val.num 1)] [[("a", Val.str "x")]] = [("a", Val.str "x")] := by
  refine ⟨fun t s h k => ?_, fun v => ?_, ?_, ?_, ?_⟩
  · simpa [mergeObjects] using mergeList_lookup s t h k
  · cases v <;> simp [mergeVal]
  · simp [mergeObjects, mergeList, mergeVal, setKey, hasKey, lookupD, lookupKey]
  · simp [mergeObjects, mergeList, mergeVal, setKey, hasKey, lookupD, lookupKey]
  · simp [mergeObjects, mergeList, mergeVal, setKey, hasKey, lookupD, lookupKey]

/-- Witness for C3: the spec applied to the concrete scalar-replacement
inputs of the claim. -/
theorem mergeObjects_per_key_spec_witness :
    (keysOf [("a", Val.str "x")]).Nodup ∧
    lookupKey (mergeObjects [("a", Val.num 1)] [[("a", Val.str "x")]]) "a" =
      some (Val.str "x") :=
  ⟨by decide, (mergeObjects_per_key_spec.1 [("a", Val.num 1)] [("a", Val.str "x")]
    (by decide) "a").trans (by simp [lookupKey, lookupD, mergeVal])⟩

/-- C4: merging no sources returns the target unchanged, and merging
two sources is the left-to-right fold of two-argument merges. -/
theorem mergeObjects_identity_and_fold :
    (∀ t : List (String × Val), mergeObjects t [] = t) ∧
    (∀ A B : List (String × Val),
      mergeObjects (mergeObjects [] [A]) [B] = mergeObjects [] [A, B]) :=
  ⟨fun _ => rfl, fun _ _ => rfl⟩

/-! ### Key normalization -/

theorem removeFirstNonLower_keeps_lower :
    ∀ (pre : List Char) (c : Char) (suf : List Char),
      (∀ d ∈ pre, d.isLower = true) → c.isLower = false →
      removeFirstNonLower (pre ++ c :: suf) = pre ++ suf := by
  intro pre
  induction pre with
  | nil =>
    intro c suf _ hc
    simp [removeFirstNonLower, hc]
  | cons d pre ih =>
    intro c suf hall hc
    have hd : d.isLower = true := hall d (List.mem_cons_self _ _)
    simp only [List.cons_append, removeFirstNonLower, if_pos hd, List.append_eq]
    rw [ih c suf (fun x hx => hall x (List.mem_cons_of_mem _ hx)) hc]

theorem removeFirstNonLower_of_all_lower :
    ∀ l : List Char, (∀ d ∈ l, d.isLower = true) → removeFirstNonLower l = l := by
  intro l
  induction l with
  | nil => intro _; rfl
  | cons d rest ih =>
    intro hall
    have hd : d.isLower = true := hall d (List.mem_cons_self _ _)
    simp only [removeFirstNonLower, if_pos hd]
    rw [ih (fun x hx => hall x (List.mem_cons_of_mem _ hx))]

/-- C2 counterexample: the normalization does not strip every
non-letter: on the key `a_b_c` it produces `ab_c`, which still
contains an underscore, instead of the all-letter `abc`. -/
theorem normalizeKey_counterexample :
    normalizeKey "a_b_c" = "ab_c" ∧ (("ab_c").data.all Char.isLower) = false := by
  refine ⟨by decide, by decide⟩

/-- C2 (amended): the Extractor key normalization lowercases the key
and removes exactly the first character outside `a`-`z`; every later
character, letter or not, is kept in place.  When the lowercased key
has only letters it is returned unchanged. -/
theorem normalizeKey_removes_first_nonletter :
    (∀ (k : String) (pre : List Char) (c : Char) (suf : List Char),
      (toLowerStr k).data = pre ++ c :: suf →
      (∀ d ∈ pre, d.isLower = true) → c.isLower = false →
      (normalizeKey k).data = pre ++ suf) ∧
    (∀ k : String, (∀ d ∈ (toLowerStr k).data, d.isLower = true) →
      normalizeKey k = toLowerStr k) := by
  constructor
  · intro k pre c suf hsplit hall hc
    have hdef : (normalizeKey k).data = removeFirstNonLower (toLowerStr k).data := rfl
    rw [hdef, hsplit, removeFirstNonLower_keeps_lower pre c suf hall hc]
  · intro k hall
    have hdef : normalizeKey k = ⟨removeFirstNonLower (toLowerStr k).data⟩ := rfl
    rw [hdef, removeFirstNonLower_of_all_lower _ hall]

/-- Witness for the amended C2: the characterization applied to the
key `a_b_c`, whose first non-letter (the first underscore) is
removed. -/
theorem normalizeKey_removes_first_nonletter_witness :
    (toLowerStr "a_b_c").data = ['a'] ++ '_' :: ['b', '_', 'c'] ∧
    (normalizeKey "a_b_c").data = ['a'] ++ ['b', '_', 'c'] :=
  ⟨by decide, normalizeKey_removes_first_nonletter.1 "a_b_c" ['a'] '_' ['b', '_', 'c']
    (by decide) (by decide) (by decide)⟩

/-! ### The scanner bound and property removal -/

/-- C1: evaluation of the scanner on a list whose property run does
not start at index 0.  The first property line is index 1 and the run
is interrupted at index 2, so the last line of the run is index 1 in
the original list; `getLastPropertyLine` however returns 0, because the
`findIndex` it takes on the sliced tail is returned without adding the
start offset back (the run-to-end branch, by contrast, returns the
absolute `lines.length - 1`). -/
theorem getLastPropertyLine_slice_offset_bug :
    getFirstPropertyLine ["x", "a:: 1", "", "b:: 2"] = 1 ∧
    getLastPropertyLine ["x", "a:: 1", "", "b:: 2"] 1 = 0 ∧
    isPropertyLine "a:: 1" = true ∧
    isPropertyLine "" = false ∧
    isPropertyLine "b:: 2" = true := by
  refine ⟨by decide, by decide, by decide, by decide, by decide⟩

theorem findIdx?_append_prop (p : String → Bool) :
    ∀ (pre : List String) (l : String) (suf : List String),
      (∀ x ∈ pre, p x = false) → p l = true →
      (pre ++ l :: suf).findIdx? p = some pre.length := by
  intro pre
  induction pre with
  | nil =>
    intro l suf _ hl
    simp [List.findIdx?_cons, hl]
  | cons a pre ih =>
    intro l suf hall hl
    have ha : p a = false := hall a (List.mem_cons_self _ _)
    simp [List.findIdx?_cons, ha,
      ih l suf (fun x hx => hall x (List.mem_cons_of_mem _ hx)) hl]

theorem findIdx?_eq_none_all_false (p : String → Bool) :
    ∀ l : List String, (∀ x ∈ l, p x = false) → l.findIdx? p = none := by
  intro l
  induction l with
  | nil => intro _; rfl
  | cons a rest ih =>
    intro hall
    have ha : p a = false := hall a (List.mem_cons_self _ _)
    simp [List.findIdx?_cons, ha,
      ih (fun x hx => hall x (List.mem_cons_of_mem _ hx))]

theorem getFirstPropertyLine_split (pre : List String) (l : String) (suf : List String)
    (hpre : ∀ x ∈ pre, isPropertyLine x = false) (hl : isPropertyLine l = true) :
    getFirstPropertyLine (pre ++ l :: suf) = pre.length := by
  unfold getFirstPropertyLine
  rw [findIdx?_append_prop _ pre l suf hpre hl]

theorem getFirstPropertyLine_of_no_property (lines : List String)
    (h : ∀ x ∈ lines, isPropertyLine x = false) :
    getFirstPropertyLine lines = lines.length := by
  unfold getFirstPropertyLine
  rw [findIdx?_eq_none_all_false _ lines h]

/-- C10: `removeProperties` keeps exactly the lines strictly before the
first property line; everything from the first property line to the
end of the list is dropped, including later non-property lines.  When
no line matches the property pattern, the whole list is kept. -/
theorem removeProperties_drops_from_first_property :
    (∀ (pre : List String) (l : String) (suf : List String),
      (∀ x ∈ pre, isPropertyLine x = false) → isPropertyLine l = true →
      removeProperties (pre ++ l :: suf) = pre) ∧
    (∀ lines : List String, (∀ x ∈ lines, isPropertyLine x = false) →
      removeProperties lines = lines) := by
  constructor
  · intro pre l suf hpre hl
    unfold removeProperties sliceJS
    rw [getFirstPropertyLine_split pre l suf hpre hl]
    simp [List.take_left]
  · intro lines h
    unfold removeProperties sliceJS
    rw [getFirstPropertyLine_of_no_property lines h]
    simp

/-- Witness for C10: the block text keeps only its title line; the
trailing non-property line `x` after the blank interruption is dropped
as well. -/
theorem removeProperties_witness :
    removeProperties ["t", "a:: 1", "", "x"] = ["t"] :=
  removeProperties_drops_from_first_property.1 ["t"] "a:: 1" ["", "x"]
    (by decide) (by decide)

/-! ### Relocation of children -/

theorem insertAfter_split (p2 : List String) (cursor c : String) :
    ∀ p1 : List String, cursor ∉ p1 →
      insertAfter (p1 ++ cursor :: p2) cursor c = p1 ++ cursor :: c :: p2 := by
  intro p1
  induction p1 with
  | nil => intro _; simp [insertAfter]
  | cons a p1 ih =>
    intro h
    have ha : ¬(a = cursor) := fun he => h (he ▸ List.mem_cons_self _ _)
    simp only [List.cons_append, insertAfter, if_neg ha, List.append_eq]
    rw [ih (fun hm => h (List.mem_cons_of_mem _ hm))]

theorem relocate_ok_aux (moveOk : String → Bool) :
    ∀ (children p1 p2 : List String) (cursor : String),
      children.Nodup → (∀ c ∈ children, moveOk c = true) → cursor ∉ p1 →
      (∀ c ∈ children, c ∉ p1 ∧ c ≠ cursor) →
      relocateChildren moveOk (p1 ++ cursor :: p2) cursor children =
        ⟨p1 ++ cursor :: (children ++ p2), children, none⟩ := by
  intro children
  induction children with
  | nil => intro p1 p2 cursor _ _ _ _; simp [relocateChildren]
  | cons c rest ih =>
    intro p1 p2 cursor hnodup hmv hcur hfresh
    have hc : moveOk c = true := hmv c (List.mem_cons_self _ _)
    simp only [relocateChildren, if_pos hc, List.append_eq]
    rw [insertAfter_split p2 cursor c p1 hcur]
    have hstep : p1 ++ cursor :: c :: p2 = (p1 ++ [cursor]) ++ c :: p2 := by simp
    rw [hstep]
    rw [ih (p1 ++ [cursor]) p2 c hnodup.of_cons
      (fun d hd => hmv d (List.mem_cons_of_mem _ hd))
      (by
        intro hm
        rcases List.mem_append.mp hm with h1 | h1
        · exact (hfresh c (List.mem_cons_self _ _)).1 h1
        · exact (hfresh c (List.mem_cons_self _ _)).2 (List.mem_singleton.mp h1))
      (by
        intro d hd
        refine ⟨?_, ?_⟩
        · intro hm
          rcases List.mem_append.mp hm with h1 | h1
          · exact (hfresh d (List.mem_cons_of_mem _ hd)).1 h1
          · exact (hfresh d (List.mem_cons_of_mem _ hd)).2 (List.mem_singleton.mp h1)
        · intro he
          exact (List.nodup_cons.mp hnodup).1 (he ▸ hd))]
    simp

/-- C5: when every move succeeds, the relocation loop leaves the
children on the target page immediately after the anchor, in exactly
their original relative order, with no error; the cursor starts at the
anchor and advances to each moved child. -/
theorem relocateChildren_preserves_order (moveOk : String → Bool)
    (p1 p2 children : List String) (anchor : String)
    (hmv : ∀ c ∈ children, moveOk c = true) (hnodup : children.Nodup)
    (hanch : anchor ∉ p1) (hfresh : ∀ c ∈ children, c ∉ p1 ∧ c ≠ anchor) :
    relocateChildren moveOk (p1 ++ anchor :: p2) anchor children =
      ⟨p1 ++ anchor :: (children ++ p2), children, none⟩ :=
  relocate_ok_aux moveOk children p1 p2 anchor hnodup hmv hanch hfresh

/-- Witness for C5: three children moved onto the anchor `T` end up in
original order right after it. -/
theorem relocateChildren_preserves_order_witness :
    relocateChildren (fun _ => true) ["T"] "T" ["c1", "c2", "c3"] =
      ⟨["T", "c1", "c2", "c3"], ["c1", "c2", "c3"], none⟩ :=
  relocateChildren_preserves_order (fun _ => true) [] [] ["c1", "c2", "c3"] "T"
    (by decide) (by decide) (by decide) (by decide)

theorem relocate_fail_aux (moveOk : String → Bool) (bad : String)
    (hbad : moveOk bad = false) (post : List String) :
    ∀ (pre p1 p2 : List String) (cursor : String),
      pre.Nodup → (∀ c ∈ pre, moveOk c = true) → cursor ∉ p1 →
      (∀ c ∈ pre, c ∉ p1 ∧ c ≠ cursor) →
      relocateChildren moveOk (p1 ++ cursor :: p2) cursor (pre ++ bad :: post) =
        ⟨p1 ++ cursor :: (pre ++ p2), pre ++ [bad], some ("move block error")⟩ := by
  intro pre
  induction pre with
  | nil =>
    intro p1 p2 cursor _ _ _ _
    simp [relocateChildren, hbad]
  | cons c rest ih =>
    intro p1 p2 cursor hnodup hmv hcur hfresh
    have hc : moveOk c = true := hmv c (List.mem_cons_self _ _)
    simp only [List.cons_append, relocateChildren, if_pos hc, List.append_eq]
    rw [insertAfter_split p2 cursor c p1 hcur]
    have hstep : p1 ++ cursor :: c :: p2 = (p1 ++ [cursor]) ++ c :: p2 := by simp
    rw [hstep]
    rw [ih (p1 ++ [cursor]) p2 c hnodup.of_cons
      (fun d hd => hmv d (List.mem_cons_of_mem _ hd))
      (by
        intro hm
        rcases List.mem_append.mp hm with h1 | h1
        · exact (hfresh c (List.mem_cons_self _ _)).1 h1
        · exact (hfresh c (List.mem_cons_self _ _)).2 (List.mem_singleton.mp h1))
      (by
        intro d hd
        refine ⟨?_, ?_⟩
        · intro hm
          rcases List.mem_append.mp hm with h1 | h1
          · exact (hfresh d (List.mem_cons_of_mem _ hd)).1 h1
          · exact (hfresh d (List.mem_cons_of_mem _ hd)).2 (List.mem_singleton.mp h1)
        · intro he
          exact (List.nodup_cons.mp hnodup).1 (he ▸ hd))]
    simp

/-- C6: when the move of child `bad` fails after the successful moves
of `pre`, the loop stops at once: the attempted children are exactly
`pre` followed by `bad` (none of `post` is attempted), the page keeps
the already-moved `pre` after the anchor (nothing is reverted, and the
loop touches no other state, so earlier writes such as the property
merge stay in place), and the user-visible message `move block error`
is raised as the loop returns. -/
theorem relocateChildren_aborts_on_failure (moveOk : String → Bool)
    (pre post p1 p2 : List String) (bad anchor : String)
    (hbad : moveOk bad = false) (hmv : ∀ c ∈ pre, moveOk c = true)
    (hnodup : pre.Nodup) (hanch : anchor ∉ p1)
    (hfresh : ∀ c ∈ pre, c ∉ p1 ∧ c ≠ anchor) :
    relocateChildren moveOk (p1 ++ anchor :: p2) anchor (pre ++ bad :: post) =
      ⟨p1 ++ anchor :: (pre ++ p2), pre ++ [bad], some ("move block error")⟩ :=
  relocate_fail_aux moveOk bad hbad post pre p1 p2 anchor hnodup hmv hanch hfresh

/-- Witness for C6: with the move of `c2` failing, `c1` stays moved,
`c3` is never attempted, and the error message is raised. -/
theorem relocateChildren_aborts_on_failure_witness :
    relocateChildren (fun s => !(s == "c2")) ["T"] "T" ["c1", "c2", "c3"] =
      ⟨["T", "c1"], ["c1", "c2"], some ("move block error")⟩ :=
  relocateChildren_aborts_on_failure (fun s => !(s == "c2")) ["c1"] ["c3"] [] []
    "c2" "T" (by decide) (by decide) (by decide) (by decide) (by decide)

/-! ### The consistency waiter -/

/-- C7: the waiter accepts exactly the first polled snapshot whose
observed reference count (0 for a null snapshot) is at most the
recorded count minus the number of removed property keys, and never a
snapshot above that threshold: it returns `some (i, s)` precisely when
poll `i` is snapshot `s`, `s` passes the acceptance test, and every
earlier poll fails it.  Rejected polls only sleep and retry. -/
theorem waiter_accepts_first_poll (r c : Nat) :
    ∀ (polls : List (Option Nat)) (i : Nat) (s : Option Nat),
      waitForRefDecrease r c polls = some (i, s) ↔
        (polls.get? i = some s ∧ waiterAccept r c (s.getD 0) = true ∧
         ∀ q ∈ polls.take i, waiterAccept r c (q.getD 0) = false) := by
  intro polls
  induction polls with
  | nil =>
    intro i s
    simp [waitForRefDecrease]
  | cons s0 rest ih =>
    intro i s
    by_cases h : waiterAccept r c (s0.getD 0) = true
    · simp only [waitForRefDecrease, if_pos h]
      cases i with
      | zero =>
        simp only [List.get?, List.take_zero]
        constructor
        · intro he
          have := (Option.some.injEq _ _).mp he
          obtain ⟨h1, h2⟩ := Prod.mk.injEq .. ▸ this
          rcases Prod.mk.injEq 0 s0 0 s ▸ this with ⟨_, rfl⟩
          exact ⟨rfl, h, by simp⟩
        · rintro ⟨h1, _, _⟩
          obtain rfl : s0 = s := (Option.some.injEq _ _).mp h1
          rfl
      | succ j =>
        constructor
        · intro he
          exact absurd ((Option.some.injEq _ _).mp he)
            (by intro hp; cases hp)
        · rintro ⟨h1, h2, h3⟩
          exact absurd (h3 s0 (by simp)) (by simp [h])
    · have hfalse : waiterAccept r c (s0.getD 0) = false := by
        cases hb : waiterAccept r c (s0.getD 0) with
        | false => rfl
        | true => exact absurd hb h
      simp only [waitForRefDecrease, if_neg h]
      cases i with
      | zero =>
        constructor
        · intro he
          rcases Option.map_eq_some'.mp he with ⟨a, _, ha2⟩
          exact absurd (congrArg Prod.fst ha2) (by simp)
        · rintro ⟨h1, h2, _⟩
          obtain rfl : s0 = s := (Option.some.injEq _ _).mp h1
          exact absurd h2 h
      | succ j =>
        constructor
        · intro he
          rcases Option.map_eq_some'.mp he with ⟨a, ha1, ha2⟩
          obtain ⟨hj, hs⟩ : a.1 + 1 = j + 1 ∧ a.2 = s := by
            constructor
            · exact congrArg Prod.fst ha2
            · exact congrArg Prod.snd ha2
          have hj' : a.1 = j := Nat.succ_injective hj
          have ha : waitForRefDecrease r c rest = some (j, s) := by
            rw [← hj', ← hs]
            exact ha1
          rcases (ih j s).mp ha with ⟨g1, g2, g3⟩
          refine ⟨g1, g2, ?_⟩
          intro q hq
          rcases List.mem_cons.mp (by simpa using hq) with h1 | h1
          · rw [h1]; exact hfalse
          · exact g3 q h1
        · rintro ⟨h1, h2, h3⟩
          have ha : waitForRefDecrease r c rest = some (j, s) :=
            (ih j s).mpr ⟨by simpa using h1, h2,
              fun q hq => h3 q (by simpa using List.mem_cons_of_mem s0 hq)⟩
          rw [ha]
          rfl

/-- Witness for C7: counts recorded 5 with 2 removals give threshold
3; polls 5, 4, 3 accept exactly at the third poll. -/
theorem waiter_accepts_first_poll_witness :
    waitForRefDecrease 5 2 [some 5, some 4, some 3] = some (2, some 3) ∧
    waiterAccept 5 2 3 = true ∧ waiterAccept 5 2 4 = false :=
  ⟨(waiter_accepts_first_poll 5 2 [some 5, some 4, some 3] 2 (some 3)).mpr
    (by refine ⟨by decide, by decide, by decide⟩), by decide, by decide⟩

/-! ### Lemmas about the property line parse -/

theorem takeWhile_prefix_stop (p : Char → Bool) :
    ∀ (xs : List Char) (y : Char) (rest : List Char),
      (∀ c ∈ xs, p c = true) → p y = false →
      (xs ++ y :: rest).takeWhile p = xs := by
  intro xs
  induction xs with
  | nil =>
    intro y rest _ hy
    simp [List.takeWhile_cons, hy]
  | cons x xs ih =>
    intro y rest hall hy
    have hx : p x = true := hall x (List.mem_cons_self _ _)
    simp only [List.cons_append, List.takeWhile_cons, hx]
    rw [ih y rest (fun c hc => hall c (List.mem_cons_of_mem _ hc)) hy]
    simp

theorem dropWhile_prefix_stop (p : Char → Bool) :
    ∀ (xs : List Char) (y : Char) (rest : List Char),
      (∀ c ∈ xs, p c = true) → p y = false →
      (xs ++ y :: rest).dropWhile p = y :: rest := by
  intro xs
  induction xs with
  | nil =>
    intro y rest _ hy
    simp [List.dropWhile_cons, hy]
  | cons x xs ih =>
    intro y rest hall hy
    have hx : p x = true := hall x (List.mem_cons_self _ _)
    simp only [List.cons_append, List.dropWhile_cons, hx]
    exact ih y rest (fun c hc => hall c (List.mem_cons_of_mem _ hc)) hy

theorem word_not_space {c : Char} (h : isWordChar c = true) : isSpaceChar c = false := by
  cases hb : isSpaceChar c with
  | false => rfl
  | true =>
    exfalso
    have hmem : c ∈ spaceChars := by simpa [isSpaceChar] using hb
    simp only [spaceChars] at hmem
    fin_cases hmem <;> exact absurd h (by decide)

theorem colon_not_word : isWordChar ':' = false := by decide

theorem mem_of_mem_dropWhile (p : Char → Bool) :
    ∀ (l : List Char) (c : Char), c ∈ l.dropWhile p → c ∈ l := by
  intro l
  induction l with
  | nil => intro c hc; simp at hc
  | cons a rest ih =>
    intro c hc
    rw [List.dropWhile_cons] at hc
    by_cases ha : p a = true
    · rw [if_pos ha] at hc
      exact List.mem_cons_of_mem _ (ih c hc)
    · rw [if_neg ha] at hc
      exact hc

theorem mem_of_mem_trimTrailingSpace {c : Char} {l : List Char}
    (h : c ∈ trimTrailingSpace l) : c ∈ l := by
  unfold trimTrailingSpace at h
  rw [List.mem_reverse] at h
  have h2 := mem_of_mem_dropWhile isSpaceChar l.reverse c h
  rw [List.mem_reverse] at h2
  exact h2

theorem parsePropertyLineChars_key_shape {cs : List Char} {q : List Char × List Char}
    (h : parsePropertyLineChars cs = some q) :
    q.1 ≠ [] ∧ ∀ c ∈ q.1, isWordChar c = true := by
  simp only [parsePropertyLineChars] at h
  split at h
  · exact Option.noConfusion h
  · rename_i hkey
    split at h
    · split at h
      · exact Option.noConfusion h
      · split at h
        · exact Option.noConfusion h
        · have he := (Option.some.injEq _ _).mp h
          refine ⟨?_, ?_⟩
          · intro hz
            apply hkey
            have : q.1 = ((cs.dropWhile isSpaceChar).takeWhile isWordChar) := by
              rw [← he]
            rw [← this, hz]
            rfl
          · intro c hc
            have : q.1 = ((cs.dropWhile isSpaceChar).takeWhile isWordChar) := by
              rw [← he]
            rw [this] at hc
            exact List.mem_takeWhile_imp hc
    · exact Option.noConfusion h

theorem parsePropertyLine_key_shape {l : String} {kv : String × String}
    (h : parsePropertyLine l = some kv) :
    kv.1.data ≠ [] ∧ ∀ c ∈ kv.1.data, isWordChar c = true := by
  unfold parsePropertyLine at h
  rcases Option.map_eq_some'.mp h with ⟨q, hq, he⟩
  have h1 := parsePropertyLineChars_key_shape hq
  have hfst : kv.1 = (⟨q.1⟩ : String) := (congrArg Prod.fst he).symm
  rw [hfst]
  exact h1

theorem data_append (a b : String) : (a ++ b).data = a.data ++ b.data := by
  cases a
  cases b
  rfl

theorem parsePropertyLineChars_of_wordkey (ks vs : List Char)
    (hne : ks ≠ []) (hw : ∀ c ∈ ks, isWordChar c = true)
    (hv : ∀ c ∈ vs, isLineTerminator c = false) :
    parsePropertyLineChars (ks ++ ':' :: ':' :: ' ' :: vs) =
      some (ks, trimTrailingSpace (vs.dropWhile isSpaceChar)) := by
  obtain ⟨c0, ks', rfl⟩ : ∃ c0 ks', ks = c0 :: ks' := by
    cases ks with
    | nil => exact absurd rfl hne
    | cons c0 ks' => exact ⟨c0, ks', rfl⟩
  have h0 : isWordChar c0 = true := hw c0 (List.mem_cons_self _ _)
  have h0s : isSpaceChar c0 = false := word_not_space h0
  have hdropSpace :
      ((c0 :: ks') ++ ':' :: ':' :: ' ' :: vs).dropWhile isSpaceChar =
        (c0 :: ks') ++ ':' :: ':' :: ' ' :: vs := by
    simp [List.dropWhile_cons, h0s]
  have htake : ((c0 :: ks') ++ ':' :: ':' :: ' ' :: vs).takeWhile isWordChar = c0 :: ks' :=
    takeWhile_prefix_stop isWordChar (c0 :: ks') ':' (':' :: ' ' :: vs) hw colon_not_word
  have hdrop : ((c0 :: ks') ++ ':' :: ':' :: ' ' :: vs).dropWhile isWordChar =
      ':' :: ':' :: ' ' :: vs :=
    dropWhile_prefix_stop isWordChar (c0 :: ks') ':' (':' :: ' ' :: vs) hw colon_not_word
  have hany : (trimTrailingSpace (vs.dropWhile isSpaceChar)).any isLineTerminator = false := by
    cases hb : (trimTrailingSpace (vs.dropWhile isSpaceChar)).any isLineTerminator with
    | false => rfl
    | true =>
      exfalso
      rcases List.any_eq_true.mp hb with ⟨x, hx, hxl⟩
      have hx2 : x ∈ vs :=
        mem_of_mem_dropWhile isSpaceChar vs x (mem_of_mem_trimTrailingSpace hx)
      rw [hv x hx2] at hxl
      exact Bool.noConfusion hxl
  have hsp : isSpaceChar ' ' = true := by decide
  simp only [parsePropertyLineChars, hdropSpace, htake, hdrop]
  simp [List.takeWhile_cons, List.dropWhile_cons, hsp, hany]

theorem parse_of_serialized (k v : String)
    (hne : k.data ≠ []) (hw : ∀ c ∈ k.data, isWordChar c = true)
    (hv : ∀ c ∈ v.data, isLineTerminator c = false) :
    parsePropertyLine (k ++ ":: " ++ v) =
      some (k, ⟨trimTrailingSpace (v.data.dropWhile isSpaceChar)⟩) := by
  unfold parsePropertyLine
  have hdata : (k ++ ":: " ++ v).data = k.data ++ ':' :: ':' :: ' ' :: v.data := by
    rw [data_append, data_append]
    have hlit : (":: " : String).data = [':', ':', ' '] := rfl
    rw [hlit, List.append_assoc]
    rfl
  rw [hdata, parsePropertyLineChars_of_wordkey k.data v.data hne hw hv]
  rfl

/-! ### Splitting and joining lines -/

theorem splitLinesAux_no_newline :
    ∀ (xs acc : List Char), (∀ c ∈ xs, c ≠ '\n') →
      splitLinesAux acc xs = [⟨acc ++ xs⟩] := by
  intro xs
  induction xs with
  | nil => intro acc _; simp [splitLinesAux]
  | cons c rest ih =>
    intro acc h
    have hc : ¬(c = '\n') := h c (List.mem_cons_self _ _)
    simp only [splitLinesAux, if_neg hc]
    rw [ih (acc ++ [c]) (fun d hd => h d (List.mem_cons_of_mem _ hd))]
    simp

theorem splitLinesAux_newline_split :
    ∀ (xs acc rest : List Char), (∀ c ∈ xs, c ≠ '\n') →
      splitLinesAux acc (xs ++ '\n' :: rest) =
        (⟨acc ++ xs⟩ : String) :: splitLinesAux [] rest := by
  intro xs
  induction xs with
  | nil => intro acc rest _; simp [splitLinesAux]
  | cons c xs ih =>
    intro acc rest h
    have hc : ¬(c = '\n') := h c (List.mem_cons_self _ _)
    simp only [List.cons_append, splitLinesAux, if_neg hc, List.append_eq]
    rw [ih (acc ++ [c]) rest (fun d hd => h d (List.mem_cons_of_mem _ hd))]
    simp

theorem splitLines_joinLines :
    ∀ pieces : List String, pieces ≠ [] →
      (∀ p ∈ pieces, ∀ c ∈ (p : String).data, c ≠ '\n') →
      splitLines (joinLines pieces) = pieces := by
  intro pieces
  induction pieces with
  | nil => intro h _; exact absurd rfl h
  | cons p rest ih =>
    intro _ hnl
    cases rest with
    | nil =>
      show splitLines (joinLines [p]) = [p]
      have hj : joinLines [p] = p := rfl
      rw [hj]
      unfold splitLines
      rw [splitLinesAux_no_newline p.data [] (hnl p (List.mem_cons_self _ _))]
      simp
    | cons q rest2 =>
      have hj : joinLines (p :: q :: rest2) = p ++ "\n" ++ joinLines (q :: rest2) := rfl
      unfold splitLines
      rw [hj]
      have hdata : (p ++ "\n" ++ joinLines (q :: rest2)).data =
          p.data ++ '\n' :: (joinLines (q :: rest2)).data := by
        rw [data_append, data_append]
        have hlit : ("\n" : String).data = ['\n'] := rfl
        rw [hlit, List.append_assoc]
        rfl
      rw [hdata,
        splitLinesAux_newline_split p.data [] (joinLines (q :: rest2)).data
          (hnl p (List.mem_cons_self _ _))]
      have htail : splitLinesAux [] (joinLines (q :: rest2)).data = q :: rest2 :=
        ih (by simp) (fun x hx => hnl x (List.mem_cons_of_mem _ hx))
      rw [htail]
      simp

/-! ### List utilities for the extractor -/

theorem filterMap_of_all_some {α β γ : Type} (f : β → Option γ) (g : α → β) (h : α → γ) :
    ∀ l : List α, (∀ x ∈ l, f (g x) = some (h x)) →
      (l.map g).filterMap f = l.map h := by
  intro l
  induction l with
  | nil => intro _; rfl
  | cons x rest ih =>
    intro hall
    simp only [List.map_cons, List.filterMap_cons, hall x (List.mem_cons_self _ _)]
    rw [ih (fun y hy => hall y (List.mem_cons_of_mem _ hy))]

theorem map_eq_self_of_id {α : Type} (g : α → α) :
    ∀ l : List α, (∀ x ∈ l, g x = x) → l.map g = l := by
  intro l
  induction l with
  | nil => intro _; rfl
  | cons x rest ih =>
    intro hall
    simp only [List.map_cons, hall x (List.mem_cons_self _ _)]
    rw [ih (fun y hy => hall y (List.mem_cons_of_mem _ hy))]

/-! ### The scanner on a text of property lines only -/

theorem scannedPairs_of_all_prop (b2 : Block) (ls : List String)
    (hls : splitLines b2.content = ls) (hne : ls ≠ [])
    (hall : ∀ l ∈ ls, isPropertyLine l = true) :
    scannedPairs b2 = ls.filterMap parsePropertyLine := by
  obtain ⟨l0, rest, rfl⟩ : ∃ l0 rest, ls = l0 :: rest := by
    cases ls with
    | nil => exact absurd rfl hne
    | cons l0 rest => exact ⟨l0, rest, rfl⟩
  have hfirst : getFirstPropertyLine (l0 :: rest) = 0 := by
    unfold getFirstPropertyLine
    simp [List.findIdx?_cons, hall l0 (List.mem_cons_self _ _)]
  have hlast : getLastPropertyLine (l0 :: rest) 0 = ((l0 :: rest).length : Int) - 1 := by
    unfold getLastPropertyLine
    rw [List.drop_zero]
    rw [findIdx?_eq_none_all_false _ (l0 :: rest)
      (by intro x hx; simp [hall x hx])]
  simp only [scannedPairs]
  rw [hls, hfirst, hlast]
  have harith : ((l0 :: rest).length : Int) - 1 + 1 = ((l0 :: rest).length : Int) := by
    omega
  rw [harith]
  unfold sliceJS
  simp

/-- The concrete block of the Extractor example: content
`Title`, `foo:: 1`, `bar:: 2` with resolved properties
`foo = 1`, `bar = 2`. -/
def titleBlock : Block :=
  ⟨"Title\nfoo:: 1\nbar:: 2", [("foo", Val.num 1), ("bar", Val.num 2)]⟩

/-- C8: on the example block the Extractor yields exactly
`foo = 1, bar = 2`, keeping the keys as written and their order of
appearance; in general, whenever the scanned raw keys are pairwise
distinct, the Extractor output is exactly the scanned raw keys in text
order, each paired with the lookup of its normalized form in the
resolved properties of the block. -/
theorem extractor_ordered_mapping :
    getPropertiesFromBlockContent titleBlock = [("foo", Val.num 1), ("bar", Val.num 2)] ∧
    (∀ b : Block, ((scannedPairs b).map Prod.fst).Nodup →
      getPropertiesFromBlockContent b =
        (scannedPairs b).map (fun kv => (kv.1, lookupD b.properties (normalizeKey kv.1)))) := by
  constructor
  · rfl
  · intro b hnodup
    unfold getPropertiesFromBlockContent
    apply fromEntries_eq_self
    have hkeys : keysOf ((scannedPairs b).map
        (fun kv => (kv.1, lookupD b.properties (normalizeKey kv.1)))) =
        (scannedPairs b).map Prod.fst := by
      simp only [keysOf, List.map_map]
      rfl
    rw [hkeys]
    exact hnodup

/-- Witness for C8: the side condition and conclusion at the example
block. -/
theorem extractor_ordered_mapping_witness :
    ((scannedPairs titleBlock).map Prod.fst).Nodup ∧
    getPropertiesFromBlockContent titleBlock =
      (scannedPairs titleBlock).map
        (fun kv => (kv.1, lookupD titleBlock.properties (normalizeKey kv.1))) :=
  ⟨by decide, extractor_ordered_mapping.2 titleBlock (by decide)⟩

/-! ### The serialize-then-extract round trip -/

/-- C9 (amended): for a block whose extracted values stringify without
an embedded line terminator (newline, carriage return, line separator
or paragraph separator — the characters the value part of the property
regex cannot match), serializing the extracted mapping with the
Serializer and extracting again from the serialized text, against the
same resolved properties, reproduces the extracted mapping exactly.
The original no-newline-only hypothesis is not enough: a carriage
return inside a value already breaks the re-scan, see the
counterexample. -/
theorem serialize_extract_roundtrip (b : Block)
    (h : ∀ p ∈ getPropertiesFromBlockContent b,
      ∀ c ∈ (displayVal p.2).data, isLineTerminator c = false) :
    getPropertiesFromBlockContent
      ⟨formatPropertiesString (getPropertiesFromBlockContent b), b.properties⟩ =
    getPropertiesFromBlockContent b := by
  have hkeyshape : ∀ p ∈ getPropertiesFromBlockContent b,
      p.1.data ≠ [] ∧ ∀ c ∈ p.1.data, isWordChar c = true := by
    intro p hp
    have hkeys : keysOf ((scannedPairs b).map
        (fun kv => (kv.1, lookupD b.properties (normalizeKey kv.1)))) =
        (scannedPairs b).map Prod.fst := by
      simp only [keysOf, List.map_map]
      rfl
    have h1 : p.1 ∈ (scannedPairs b).map Prod.fst := by
      rw [← hkeys]
      exact fromEntries_key_mem hp
    obtain ⟨kv, hkv, hfst⟩ := List.mem_map.mp h1
    simp only [scannedPairs] at hkv
    obtain ⟨line, _, hparse⟩ := List.mem_filterMap.mp hkv
    rw [← hfst]
    exact parsePropertyLine_key_shape hparse
  have hvals : ∀ p ∈ getPropertiesFromBlockContent b,
      p.2 = lookupD b.properties (normalizeKey p.1) := by
    intro p hp
    refine fromEntries_val (fun k => lookupD b.properties (normalizeKey k)) ?_ p hp
    intro q hq
    obtain ⟨kv, _, hkv⟩ := List.mem_map.mp hq
    rw [← hkv]
  have hnodup0 : (keysOf (getPropertiesFromBlockContent b)).Nodup :=
    fromEntries_keys_nodup _
  cases hm : getPropertiesFromBlockContent b with
  | nil => rfl
  | cons p0 m' =>
    rw [hm] at h hkeyshape hvals hnodup0
    have hserparse : ∀ p ∈ (p0 :: m'),
        parsePropertyLine (p.1 ++ ":: " ++ displayVal p.2) =
          some (p.1,
            (⟨trimTrailingSpace ((displayVal p.2).data.dropWhile isSpaceChar)⟩ : String)) := by
      intro p hp
      exact parse_of_serialized p.1 (displayVal p.2) (hkeyshape p hp).1 (hkeyshape p hp).2
        (h p hp)
    have hnl2 : ∀ l ∈ (p0 :: m').map (fun p => p.1 ++ ":: " ++ displayVal p.2),
        ∀ c ∈ (l : String).data, c ≠ '\n' := by
      intro l hl c hc
      obtain ⟨p, hp, rfl⟩ := List.mem_map.mp hl
      have hdata : (p.1 ++ ":: " ++ displayVal p.2).data =
          p.1.data ++ ':' :: ':' :: ' ' :: (displayVal p.2).data := by
        rw [data_append, data_append]
        have hlit : (":: " : String).data = [':', ':', ' '] := rfl
        rw [hlit, List.append_assoc]
        rfl
      rw [hdata] at hc
      intro he
      subst he
      rcases List.mem_append.mp hc with h1 | h1
      · exact absurd ((hkeyshape p hp).2 _ h1) (by decide)
      · simp only [List.mem_cons] at h1
        rcases h1 with h1 | h1 | h1 | h1
        · exact absurd h1 (by decide)
        · exact absurd h1 (by decide)
        · exact absurd h1 (by decide)
        · exact absurd (h p hp '\n' h1) (by decide)
    have hsplit : splitLines (formatPropertiesString (p0 :: m')) =
        (p0 :: m').map (fun p => p.1 ++ ":: " ++ displayVal p.2) := by
      unfold formatPropertiesString
      exact splitLines_joinLines _ (by simp) hnl2
    have hpl : ∀ l ∈ (p0 :: m').map (fun p => p.1 ++ ":: " ++ displayVal p.2),
        isPropertyLine l = true := by
      intro l hl
      obtain ⟨p, hp, rfl⟩ := List.mem_map.mp hl
      unfold isPropertyLine
      rw [hserparse p hp]
      rfl
    have hscan : scannedPairs ⟨formatPropertiesString (p0 :: m'), b.properties⟩ =
        ((p0 :: m').map (fun p => p.1 ++ ":: " ++ displayVal p.2)).filterMap
          parsePropertyLine :=
      scannedPairs_of_all_prop _ _ hsplit (by simp) hpl
    have hfm : ((p0 :: m').map
          (fun p => p.1 ++ ":: " ++ displayVal p.2)).filterMap parsePropertyLine =
        (p0 :: m').map (fun p =>
          (p.1, (⟨trimTrailingSpace ((displayVal p.2).data.dropWhile isSpaceChar)⟩ : String))) :=
      filterMap_of_all_some parsePropertyLine _ _ (p0 :: m') hserparse
    show getPropertiesFromBlockContent
      ⟨formatPropertiesString (p0 :: m'), b.properties⟩ = p0 :: m'
    simp only [getPropertiesFromBlockContent]
    rw [hscan, hfm, List.map_map]
    have hentries : (p0 :: m').map
        ((fun kv => (kv.1, lookupD b.properties (normalizeKey kv.1))) ∘
          (fun p =>
            (p.1, (⟨trimTrailingSpace ((displayVal p.2).data.dropWhile isSpaceChar)⟩ : String)))) =
        p0 :: m' := by
      apply map_eq_self_of_id
      intro p hp
      have hv := hvals p hp
      show (p.1, lookupD b.properties (normalizeKey p.1)) = p
      rw [← hv]
    rw [hentries]
    exact fromEntries_eq_self hnodup0

/-- Witness for C9: the round trip on the example block, whose values
`1` and `2` stringify without a newline. -/
theorem serialize_extract_roundtrip_witness :
    getPropertiesFromBlockContent
      ⟨formatPropertiesString (getPropertiesFromBlockContent titleBlock),
        titleBlock.properties⟩ =
      getPropertiesFromBlockContent titleBlock :=
  serialize_extract_roundtrip titleBlock (by
    have d1 : displayVal (Val.num 1) = "1" := by
      have e1 : displayVal (Val.num 1) = toString (1 : Int) := by simp [displayVal]
      rw [e1]
      decide
    have d2 : displayVal (Val.num 2) = "2" := by
      have e2 : displayVal (Val.num 2) = toString (2 : Int) := by simp [displayVal]
      rw [e2]
      decide
    intro p hp
    have hm : getPropertiesFromBlockContent titleBlock =
        [("foo", Val.num 1), ("bar", Val.num 2)] := rfl
    rw [hm] at hp
    rcases List.mem_cons.mp hp with rfl | hp2
    · show ∀ c ∈ (displayVal (Val.num 1)).data, isLineTerminator c = false
      rw [d1]
      decide
    · rcases List.mem_cons.mp hp2 with rfl | hp3
      · show ∀ c ∈ (displayVal (Val.num 2)).data, isLineTerminator c = false
        rw [d2]
        decide
      · cases hp3)

/-- A block whose single resolved value contains a carriage return but
no newline. -/
def crBlock : Block := ⟨"k:: v", [("k", Val.str "1\r2")]⟩

/-- C9 counterexample: the claim as stated fails with only the
no-embedded-newline proviso.  The extraction of `crBlock` is the
mapping `k` to the string `1`, carriage return, `2` — a value with no
newline — yet serializing it and re-extracting yields the empty
mapping, because the serialized line fails the property pattern: the
value part of the regex cannot match across a carriage return and the
end anchor cannot match before one. -/
theorem serialize_extract_roundtrip_counterexample :
    getPropertiesFromBlockContent crBlock = [("k", Val.str "1\r2")] ∧
    (∀ p ∈ getPropertiesFromBlockContent crBlock, '\n' ∉ (displayVal p.2).data) ∧
    formatPropertiesString (getPropertiesFromBlockContent crBlock) = "k:: 1\r2" ∧
    getPropertiesFromBlockContent
      ⟨formatPropertiesString (getPropertiesFromBlockContent crBlock),
        crBlock.properties⟩ = [] := by
  have hm : getPropertiesFromBlockContent crBlock = [("k", Val.str "1\r2")] := rfl
  have hd : displayVal (Val.str "1\r2") = "1\r2" := by simp [displayVal]
  have hfmt : formatPropertiesString (getPropertiesFromBlockContent crBlock) = "k:: 1\r2" := by
    rw [hm]
    unfold formatPropertiesString
    have hmap : ([("k", Val.str "1\r2")].map (fun p => p.1 ++ ":: " ++ displayVal p.2)) =
        ["k" ++ ":: " ++ "1\r2"] := by
      simp [hd]
    rw [hmap]
    have hjoin : joinLines ["k" ++ ":: " ++ "1\r2"] = "k" ++ ":: " ++ "1\r2" := rfl
    rw [hjoin]
    decide
  refine ⟨hm, ?_, hfmt, ?_⟩
  · intro p hp
    rw [hm] at hp
    rcases List.mem_cons.mp hp with rfl | hp2
    · show '\n' ∉ (displayVal (Val.str "1\r2")).data
      rw [hd]
      decide
    · cases hp2
  · rw [hfmt]
    rfl
